import Mathlib

/-!
Verification of the reconciliation core of `crates/git_ui/src/project_diff.rs`:
the `ProjectDiff` view that keeps a merged multi-buffer diff view synchronized
with the repository's working-tree status.

The Rust code is embedded shallowly: the pure classification and reconciliation
logic is transcribed from the source, while collaborators that live outside the
provided source tree (the `MultiBuffer` excerpt container, the git status
types, the watch channel, the editor's hunk queries) are modelled from the
specification's collaborator contracts and are marked as such in their doc
comments.
-/

/-- PathKey as in `multi_buffer::PathKey`: a sort namespace plus a
repo-relative path. The view orders excerpts by `(namespace, path)`. -/
structure PathKey where
  ns : String
  path : String
deriving DecidableEq, Repr

/-- PathKey::namespaced from the source: builds a key from a namespace
constant and a repo-relative path. -/
def PathKey.namespaced (ns : String) (path : String) : PathKey :=
  { ns := ns, path := path }

/-- Modelled from the spec: the sort order on PathKey is lexicographic on
`(namespace, path)` (`multi_buffer` itself is outside the provided sources).
String comparison is the lexicographic order on the underlying character
lists. -/
def PathKey.lt (a b : PathKey) : Prop :=
  a.ns.data < b.ns.data ∨ (a.ns = b.ns ∧ a.path.data < b.path.data)

instance (a b : PathKey) : Decidable (PathKey.lt a b) :=
  inferInstanceAs (Decidable (_ ∨ _))

/-- CONFLICT_NAMESPACE from the source: conflicted files sort first. -/
def CONFLICT_NAMESPACE : String := "0"

/-- TRACKED_NAMESPACE from the source: ordinary tracked changes sort in the
middle. -/
def TRACKED_NAMESPACE : String := "1"

/-- NEW_NAMESPACE from the source: newly created files sort last. -/
def NEW_NAMESPACE : String := "2"

/-- Modelled from the spec: the status flags of one reported change entry
(`git::status::FileStatus` is outside the provided sources). Only the three
predicates the core consults are modelled: `has_changes`, `is_created`,
`is_deleted`. -/
structure FileStatus where
  has_changes : Bool
  is_created : Bool
  is_deleted : Bool
deriving DecidableEq, Repr

/-- Modelled from the spec: one reported status item: a repo-relative path
plus its status flags. -/
structure ChangeEntry where
  repo_path : String
  status : FileStatus
deriving DecidableEq, Repr

/-- Modelled from the spec: the status-source collaborator contract: the
active repository exposes the current status entries, a conflict predicate,
and the repo-to-project path mapping (which can fail). -/
structure Repo where
  status : List ChangeEntry
  has_conflict : String → Bool
  repo_path_to_project_path : String → Option String

/-- Modelled from the spec: one excerpt record of the merged view: its key
and the line ranges currently materialized. -/
structure Excerpt where
  key : PathKey
  ranges : List (Nat × Nat)
deriving DecidableEq, Repr

/-- Modelled from the spec: the merged view is an ordered collection of
excerpt records, one per tracked PathKey, kept in key-sort order. -/
abbrev MergedView := List Excerpt

/-- Keys currently present in the merged view, in visible order
(`MultiBuffer::paths` in the source). -/
def paths (v : MergedView) : List PathKey :=
  v.map Excerpt.key

/-- Ranges currently materialized for a key, if present. -/
def lookup_ranges (v : MergedView) (key : PathKey) : Option (List (Nat × Nat)) :=
  (v.find? (fun e => decide (e.key = key))).map Excerpt.ranges

/-- Modelled from the spec: `MultiBuffer::set_excerpts_for_path`: insert or
replace the excerpt for a key, keeping visible order equal to key-sort order;
returns the updated view and whether the key was newly added. -/
def set_excerpts_for_path (key : PathKey) (ranges : List (Nat × Nat)) :
    MergedView → MergedView × Bool
  | [] => ([{ key := key, ranges := ranges }], true)
  | e :: rest =>
    if e.key = key then ({ key := key, ranges := ranges } :: rest, false)
    else if PathKey.lt key e.key then
      ({ key := key, ranges := ranges } :: e :: rest, true)
    else
      let r := set_excerpts_for_path key ranges rest
      (e :: r.1, r.2)

/-- Modelled from the spec: `MultiBuffer::remove_excerpts_for_path`: drop the
excerpt for one key. -/
def remove_excerpts_for_path (key : PathKey) (v : MergedView) : MergedView :=
  v.filter (fun e => decide (e.key ≠ key))

/-- Modelled from the spec: `MultiBuffer::location_for_path`: the position of
a key's excerpt, when present. Positions are identified with the key whose
excerpt start they denote (the editor's selections are anchors that stay with
their excerpt). -/
def location_for_path (v : MergedView) (key : PathKey) : Option PathKey :=
  if key ∈ paths v then some key else none

/-- The key-level shape of `set_excerpts_for_path`: sorted insertion that
leaves an already-present key in place. -/
def insert_key (key : PathKey) : List PathKey → List PathKey
  | [] => [key]
  | k :: rest =>
    if k = key then k :: rest
    else if PathKey.lt key k then key :: k :: rest
    else k :: insert_key key rest

/-- One issued unit of load work: the classified key, the openable project
path, and the status snapshot captured at issue time (the closure state of
the spawned task in `load_buffers`). -/
structure LoadRequest where
  path_key : PathKey
  project_path : String
  file_status : FileStatus
deriving DecidableEq, Repr

/-- DiffBuffer from the source: the result of one completed load-and-diff
unit. The buffer and diff handles are abstracted to the diff hunk ranges that
`register_buffer` extracts from them. -/
structure DiffBuffer where
  path_key : PathKey
  hunk_ranges : List (Nat × Nat)
  file_status : FileStatus
deriving DecidableEq, Repr

/-- Modelled from the spec: resolving one load request against the document
and diff collaborators yields the diff hunk ranges, or fails. `loaded_value`
packages a successful resolution as the DiffBuffer the reconciler consumes. -/
def loaded_value (resolve : LoadRequest → Option (List (Nat × Nat)))
    (r : LoadRequest) : Option DiffBuffer :=
  (resolve r).map (fun ranges =>
    { path_key := r.path_key, hunk_ranges := ranges, file_status := r.file_status })

/-- Which surface currently holds keyboard focus: the view's container focus
handle, the editor, or something else entirely. -/
inductive Focus where
  | container
  | editor
  | other
deriving DecidableEq, Repr

/-- The observable state of the `ProjectDiff` view: the merged multibuffer,
the single-slot pending scroll target, and the editor-side state the core
mutates (selection, folded buffers, focus). -/
structure ProjectDiff where
  multibuffer : MergedView
  pending_scroll : Option PathKey
  selection : Option PathKey
  folded : List PathKey
  focus : Focus
deriving DecidableEq, Repr

/-- move_to_path from the source: select the key's excerpt when it exists,
otherwise remember the key as the pending scroll target. -/
def move_to_path (key : PathKey) (this : ProjectDiff) : ProjectDiff :=
  match location_for_path this.multibuffer key with
  | some pos => { this with selection := some pos }
  | none => { this with pending_scroll := some key }

/-- move_to_entry from the source: classify the entry into a namespace (the
same three-way policy as `load_buffers`) and navigate to its key. Without an
active repository it does nothing. -/
def move_to_entry (repo? : Option Repo) (entry : ChangeEntry)
    (this : ProjectDiff) : ProjectDiff :=
  match repo? with
  | none => this
  | some repo =>
    let ns :=
      if repo.has_conflict entry.repo_path then CONFLICT_NAMESPACE
      else if entry.status.is_created then NEW_NAMESPACE
      else TRACKED_NAMESPACE
    move_to_path (PathKey.namespaced ns entry.repo_path) this

/-- The focus adjustment at the end of `register_buffer` (source lines
407-419): if the multibuffer ended up empty and the editor held focus, focus
falls back to the container handle; otherwise if the container handle was
focused and the multibuffer is non-empty, the editor takes focus. -/
def focus_after_register (view_is_empty : Bool) (f : Focus) : Focus :=
  if view_is_empty && decide (f = Focus.editor) then Focus.container
  else if decide (f = Focus.container) && !view_is_empty then Focus.editor
  else f

/-- register_buffer from the source: apply one completed load to the merged
view: insert or replace the excerpt, select the beginning if the view was
empty, fold newly added deleted files, adjust focus, and re-run the pending
scroll when it matches this key. -/
def register_buffer (diff_buffer : DiffBuffer) (this : ProjectDiff) : ProjectDiff :=
  let path_key := diff_buffer.path_key
  let was_empty := this.multibuffer.isEmpty
  let r := set_excerpts_for_path path_key diff_buffer.hunk_ranges this.multibuffer
  let is_excerpt_newly_added := r.2
  let selection := if was_empty then some path_key else this.selection
  let folded :=
    if is_excerpt_newly_added && diff_buffer.file_status.is_deleted then
      path_key :: this.folded
    else this.folded
  let focus := focus_after_register r.1.isEmpty this.focus
  let this1 : ProjectDiff :=
    { this with multibuffer := r.1, selection := selection, folded := folded, focus := focus }
  if this1.pending_scroll = some path_key then move_to_path path_key this1
  else this1

/-- The status-scanning loop of `load_buffers`: walk the status entries,
skipping unchanged and unmappable ones, classify each remaining entry into a
namespaced key, drop seen keys from the previously-tracked set, and collect
one load request per entry. Returns the leftover stale keys and the issued
requests, in issue order. -/
def gather (repo : Repo) : List ChangeEntry → List PathKey → List PathKey × List LoadRequest
  | [], previous_paths => (previous_paths, [])
  | entry :: rest, previous_paths =>
    if entry.status.has_changes then
      match repo.repo_path_to_project_path entry.repo_path with
      | none => gather repo rest previous_paths
      | some project_path =>
        let ns :=
          if repo.has_conflict entry.repo_path then CONFLICT_NAMESPACE
          else if entry.status.is_created then NEW_NAMESPACE
          else TRACKED_NAMESPACE
        let path_key := PathKey.namespaced ns entry.repo_path
        let r := gather repo rest (previous_paths.erase path_key)
        (r.1, { path_key := path_key, project_path := project_path,
                file_status := entry.status } :: r.2)
    else gather repo rest previous_paths

/-- load_buffers from the source: with no active repository, clear the view
and issue nothing; otherwise scan the status, remove every previously tracked
key that the new status no longer yields, and return the issued load
requests. Removals happen here, before any load completion is processed. -/
def load_buffers (repo? : Option Repo) (this : ProjectDiff) :
    ProjectDiff × List LoadRequest :=
  match repo? with
  | none => ({ this with multibuffer := [] }, [])
  | some repo =>
    let r := gather repo repo.status (paths this.multibuffer)
    ({ this with
        multibuffer := r.1.foldl (fun v k => remove_excerpts_for_path k v) this.multibuffer },
      r.2)

/-- The registration loop of `handle_status_updates`: each completed load is
applied to the view in the order the loop observes it. -/
def register_all (completions : List DiffBuffer) (this : ProjectDiff) : ProjectDiff :=
  completions.foldl (fun s d => register_buffer d s) this

/-- One full refresh pass of the reader loop in `handle_status_updates`:
issue loads (pruning stale keys first), register each successfully completed
load in the order the loop observes them, and finally take the pending scroll
slot unconditionally. -/
def run_pass (repo? : Option Repo) (completions : List DiffBuffer)
    (this : ProjectDiff) : ProjectDiff :=
  let r := load_buffers repo? this
  let this2 := register_all completions r.1
  { this2 with pending_scroll := none }

/-- The requests one status scan issues (independent of the previously
tracked key set). -/
def issued_requests (repo : Repo) : List LoadRequest :=
  (gather repo repo.status []).2

/-- The keys the latest status query yields: the classified keys of the
entries that have changes and map to an openable project path. -/
def target_keys (repo : Repo) : List PathKey :=
  (issued_requests repo).map LoadRequest.path_key

/-- The three-way namespace policy exactly as the specification words it:
unresolved merge conflict first, then newly created, else tracked. -/
def spec_namespace (conflicted : Bool) (created : Bool) : String :=
  if conflicted then CONFLICT_NAMESPACE
  else if created then NEW_NAMESPACE
  else TRACKED_NAMESPACE

/-- The load request the specification prescribes for one status entry:
issued exactly when the entry has changes and its repo path maps to an
openable project path. -/
def spec_request (repo : Repo) (entry : ChangeEntry) : Option LoadRequest :=
  if entry.status.has_changes then
    (repo.repo_path_to_project_path entry.repo_path).map (fun pp =>
      { path_key := PathKey.namespaced
          (spec_namespace (repo.has_conflict entry.repo_path) entry.status.is_created)
          entry.repo_path,
        project_path := pp, file_status := entry.status })
  else none

/-- Well-formedness of the merged view: visible order is strictly ascending
in the key order, which also makes keys unique. -/
abbrev viewWF (v : MergedView) : Prop :=
  (paths v).Pairwise PathKey.lt

/-- Focusable::focus_handle from the source: the view's item exposes the
container handle while empty and the editor's handle otherwise. -/
def focus_handle (this : ProjectDiff) : Focus :=
  if this.multibuffer.isEmpty then Focus.container else Focus.editor

/-- Modelled from the spec: the single-slot watch channel the view's change
subscription writes into (postage::watch in the source, which is outside the
provided sources): a writer overwrites the slot content, so the slot only
records that pending work exists, never how many signals arrived. -/
def signal (_slot : Bool) : Bool := true

/-- Modelled from the spec: the sequential reader loop of
`handle_status_updates`: the Bool says whether the slot holds an unseen
notification, and the list gives, for each refresh pass the loop runs, how
many change signals arrive while that pass is in flight. The result is the
total number of refresh passes executed; the loop finishes one pass before
accepting the next notification. -/
def reader_loop : Bool → List Nat → Nat
  | false, _ => 0
  | true, [] => 1
  | true, k :: rest => 1 + reader_loop (Nat.iterate signal k false) rest

/-- DiffHunkSecondaryStatus from `buffer_diff` (declared outside the provided
sources; the five constructors are the ones `button_states` matches on). -/
inductive DiffHunkSecondaryStatus where
  | HasSecondaryHunk
  | SecondaryHunkAdditionPending
  | OverlapsWithSecondaryHunk
  | None
  | SecondaryHunkRemovalPending
deriving DecidableEq, Repr

/-- Modelled from the spec: one diff hunk as the editor reports it: its
buffer range and its staging (secondary) status. -/
structure DiffHunk where
  buffer_range : Nat × Nat
  secondary_status : DiffHunkSecondaryStatus
deriving DecidableEq, Repr

/-- Modelled from the spec: the editor state `button_states` reads: the
disjoint selection ranges, the excerpt under the cursor (if any), and the
diff hunks of the snapshot. -/
structure EditorState where
  selections : List (Nat × Nat)
  active_excerpt : Option (Nat × Nat)
  hunks : List DiffHunk
deriving DecidableEq, Repr

/-- Modelled from the spec: two line ranges intersect when neither ends
before the other begins. -/
def ranges_intersect (a b : Nat × Nat) : Bool :=
  decide (a.1 ≤ b.2) && decide (b.1 ≤ a.2)

/-- Modelled from the spec: `Editor::diff_hunks_in_ranges`: the hunks whose
range intersects the given range set. -/
def diff_hunks_in_ranges (hunks : List DiffHunk) (ranges : List (Nat × Nat)) :
    List DiffHunk :=
  hunks.filter (fun h => ranges.any (fun r => ranges_intersect r h.buffer_range))

/-- The range-set fallback of `button_states`: the selection ranges when some
selection is a non-empty range, otherwise the active excerpt's range,
otherwise nothing. -/
def active_ranges (ed : EditorState) : List (Nat × Nat) :=
  if ed.selections.any (fun r => decide (r.1 ≠ r.2)) then ed.selections
  else
    match ed.active_excerpt with
    | some r => [r]
    | none => []

/-- One step of the hunk scan in `button_states`: the accumulator is
`(has_staged_hunks, has_unstaged_hunks)` and each hunk's secondary status
updates it exactly as the source's match arms do. -/
def scan_step (acc : Bool × Bool) (hunk : DiffHunk) : Bool × Bool :=
  match hunk.secondary_status with
  | DiffHunkSecondaryStatus.HasSecondaryHunk => (acc.1, true)
  | DiffHunkSecondaryStatus.SecondaryHunkAdditionPending => (acc.1, true)
  | DiffHunkSecondaryStatus.OverlapsWithSecondaryHunk => (true, true)
  | DiffHunkSecondaryStatus.None => (true, acc.2)
  | DiffHunkSecondaryStatus.SecondaryHunkRemovalPending => (true, acc.2)

/-- The hunk scan of `button_states` over the hunks in the active ranges. -/
def scan_hunks (hunks : List DiffHunk) : Bool × Bool :=
  hunks.foldl scan_step (false, false)

/-- ButtonStates from the source. -/
structure ButtonStates where
  stage : Bool
  unstage : Bool
  prev_next : Bool
  selection : Bool
  stage_all : Bool
  unstage_all : Bool
deriving DecidableEq, Repr

/-- button_states from the source: `prev_next` is whether a second hunk
exists in the whole snapshot; `selection` is whether some selection range is
non-empty; `stage` is enabled when the scan saw an unstaged hunk and
`unstage` when it saw a staged one. The bulk flags come from the git panel
collaborator and are passed through. -/
def button_states (ed : EditorState) (stage_all : Bool) (unstage_all : Bool) :
    ButtonStates :=
  let prev_next := decide (2 ≤ ed.hunks.length)
  let has_sel := ed.selections.any (fun r => decide (r.1 ≠ r.2))
  let scanned := scan_hunks (diff_hunks_in_ranges ed.hunks (active_ranges ed))
  { stage := scanned.2, unstage := scanned.1, prev_next := prev_next,
    selection := has_sel, stage_all := stage_all, unstage_all := unstage_all }

/-- A secondary status that means the hunk is fully or partially unstaged
(an index-side secondary hunk exists, is being added, or overlaps). -/
def indicates_unstaged : DiffHunkSecondaryStatus → Bool
  | DiffHunkSecondaryStatus.HasSecondaryHunk => true
  | DiffHunkSecondaryStatus.SecondaryHunkAdditionPending => true
  | DiffHunkSecondaryStatus.OverlapsWithSecondaryHunk => true
  | _ => false

/-- A secondary status that means the hunk is fully or partially staged (no
secondary hunk remains, one is being removed, or it overlaps). -/
def indicates_staged : DiffHunkSecondaryStatus → Bool
  | DiffHunkSecondaryStatus.None => true
  | DiffHunkSecondaryStatus.SecondaryHunkRemovalPending => true
  | DiffHunkSecondaryStatus.OverlapsWithSecondaryHunk => true
  | _ => false

/-- Status flags of an ordinary modified tracked file. -/
def modified_status : FileStatus :=
  { has_changes := true, is_created := false, is_deleted := false }

/-- Status flags of a newly created file. -/
def created_status : FileStatus :=
  { has_changes := true, is_created := true, is_deleted := false }

/-- Status flags of a deleted file. -/
def deleted_status : FileStatus :=
  { has_changes := true, is_created := false, is_deleted := true }

/-- A quiescent view state with the given excerpts, used as a concrete test
fixture. -/
def mk_state (v : MergedView) : ProjectDiff :=
  { multibuffer := v, pending_scroll := none, selection := none, folded := [],
    focus := Focus.other }

/-- Concrete fixture: a repository whose status reports exactly one modified
tracked file `b`, with no conflicts and the identity path mapping. -/
def repo_b : Repo :=
  { status := [{ repo_path := "b", status := modified_status }],
    has_conflict := fun _ => false,
    repo_path_to_project_path := fun p => some p }

/-- Concrete fixture: a repository reporting a new file `x`, a modified file
`y` and a conflicted file `z`. -/
def repo_xyz : Repo :=
  { status := [{ repo_path := "x", status := created_status },
               { repo_path := "y", status := modified_status },
               { repo_path := "z", status := modified_status }],
    has_conflict := fun p => decide (p = "z"),
    repo_path_to_project_path := fun p => some p }

/-- Concrete fixture: every load resolves to one hunk range. -/
def resolve_one (_r : LoadRequest) : Option (List (Nat × Nat)) := some [(0, 1)]

/-- Concrete fixture: a view tracking keys a, b, c in the tracked namespace. -/
def st_abc : ProjectDiff := mk_state
  [{ key := { ns := "1", path := "a" }, ranges := [(0, 1)] },
   { key := { ns := "1", path := "b" }, ranges := [(0, 1)] },
   { key := { ns := "1", path := "c" }, ranges := [(0, 1)] }]

/-- Concrete fixture: an empty view. -/
def st_empty : ProjectDiff := mk_state []

/-- Concrete fixture: an empty view whose container handle holds focus. -/
def st_empty_container : ProjectDiff :=
  { multibuffer := [], pending_scroll := none, selection := none, folded := [],
    focus := Focus.container }

/-- Concrete fixture: the successful completions of one refresh over
`repo_b`, in issue order. -/
def loaded_b : List DiffBuffer :=
  (issued_requests repo_b).filterMap (loaded_value resolve_one)

/-- Concrete fixture: the successful completions of one refresh over
`repo_xyz`, in issue order. -/
def loaded_xyz : List DiffBuffer :=
  (issued_requests repo_xyz).filterMap (loaded_value resolve_one)

/-- Concrete fixture: the tracked key of path a. -/
def k9 : PathKey := { ns := "1", path := "a" }

/-- Concrete fixture: a view that already tracks `k9` (for example after a
pass in which the file was merely modified). -/
def st9 : ProjectDiff := mk_state [{ key := k9, ranges := [(0, 1)] }]

/-- Concrete fixture: a completed load reporting `k9` now deleted. -/
def d9 : DiffBuffer :=
  { path_key := k9, hunk_ranges := [(2, 3)], file_status := deleted_status }

/-- Concrete fixture: a fully staged hunk (no secondary hunk remains). -/
def h_staged : DiffHunk :=
  { buffer_range := (0, 3), secondary_status := DiffHunkSecondaryStatus.None }

/-- Concrete fixture: a fully unstaged hunk. -/
def h_unstaged : DiffHunk :=
  { buffer_range := (10, 13),
    secondary_status := DiffHunkSecondaryStatus.HasSecondaryHunk }

/-- Concrete fixture: a selection covering only the staged hunk. -/
def ed_only_staged : EditorState :=
  { selections := [(0, 3)], active_excerpt := none, hunks := [h_staged, h_unstaged] }

/-- Concrete fixture: a selection covering both hunks. -/
def ed_both : EditorState :=
  { selections := [(0, 13)], active_excerpt := none, hunks := [h_staged, h_unstaged] }

/-- Concrete fixture: a status entry with no changes. -/
def entry_unchanged : ChangeEntry :=
  { repo_path := "u",
    status := { has_changes := false, is_created := false, is_deleted := false } }

/-- Concrete fixture: a repository whose repo-to-project mapping always
fails. -/
def repo_unmappable : Repo :=
  { status := [{ repo_path := "m", status := modified_status }],
    has_conflict := fun _ => false,
    repo_path_to_project_path := fun _ => none }

/-- Concrete fixture: the request issued for the new file x of repo_xyz. -/
def req_x : LoadRequest :=
  { path_key := { ns := "2", path := "x" }, project_path := "x",
    file_status := created_status }

/-! ### Basic facts about the key order and the view operations -/

theorem string_data_inj {s t : String} (h : s.data = t.data) : s = t := by
  cases s; cases t; simp_all

theorem pk_ext {a b : PathKey} (h1 : a.ns = b.ns) (h2 : a.path = b.path) : a = b := by
  cases a; cases b; simp_all

theorem pk_lt_trans {a b c : PathKey} (h1 : PathKey.lt a b) (h2 : PathKey.lt b c) :
    PathKey.lt a c := by
  rcases h1 with h1 | ⟨e1, h1⟩ <;> rcases h2 with h2 | ⟨e2, h2⟩
  · exact Or.inl (lt_trans h1 h2)
  · left; rw [e2] at h1; exact h1
  · left; rw [e1]; exact h2
  · right; exact ⟨e1.trans e2, lt_trans h1 h2⟩

theorem pk_lt_irrefl (a : PathKey) : ¬ PathKey.lt a a := by
  rintro (h | ⟨_, h⟩) <;> exact lt_irrefl _ h

theorem pk_lt_asymm {a b : PathKey} (h : PathKey.lt a b) : ¬ PathKey.lt b a :=
  fun h2 => pk_lt_irrefl a (pk_lt_trans h h2)

theorem pk_lt_total {a b : PathKey} (h : a ≠ b) : PathKey.lt a b ∨ PathKey.lt b a := by
  rcases lt_trichotomy a.ns.data b.ns.data with h1 | h1 | h1
  · exact Or.inl (Or.inl h1)
  · have ens : a.ns = b.ns := string_data_inj h1
    rcases lt_trichotomy a.path.data b.path.data with h2 | h2 | h2
    · exact Or.inl (Or.inr ⟨ens, h2⟩)
    · exact absurd (pk_ext ens (string_data_inj h2)) h
    · exact Or.inr (Or.inr ⟨ens.symm, h2⟩)
  · exact Or.inr (Or.inl h1)

theorem paths_nil : paths [] = [] := rfl

theorem paths_cons (e : Excerpt) (v : MergedView) : paths (e :: v) = e.key :: paths v := rfl

theorem mem_insert_key (x key : PathKey) : ∀ (l : List PathKey),
    x ∈ insert_key key l ↔ x = key ∨ x ∈ l
  | [] => by simp [insert_key]
  | k :: rest => by
    simp only [insert_key]
    by_cases h1 : k = key
    · subst h1
      rw [if_pos rfl]
      simp only [List.mem_cons]
      tauto
    · rw [if_neg h1]
      by_cases h2 : PathKey.lt key k
      · rw [if_pos h2]
        simp only [List.mem_cons]
      · rw [if_neg h2]
        simp only [List.mem_cons, mem_insert_key x key rest]
        tauto

theorem pairwise_insert_key (key : PathKey) : ∀ (l : List PathKey),
    l.Pairwise PathKey.lt → (insert_key key l).Pairwise PathKey.lt
  | [], _ => by simp [insert_key]
  | k :: rest, h => by
    rw [List.pairwise_cons] at h
    obtain ⟨hk, hrest⟩ := h
    simp only [insert_key]
    by_cases h1 : k = key
    · rw [if_pos h1, List.pairwise_cons]
      exact ⟨hk, hrest⟩
    · rw [if_neg h1]
      by_cases h2 : PathKey.lt key k
      · rw [if_pos h2, List.pairwise_cons]
        refine ⟨?_, List.pairwise_cons.mpr ⟨hk, hrest⟩⟩
        intro x hx
        rcases List.mem_cons.mp hx with rfl | hx
        · exact h2
        · exact pk_lt_trans h2 (hk x hx)
      · rw [if_neg h2, List.pairwise_cons]
        have hlt : PathKey.lt k key := by
          rcases pk_lt_total h1 with h | h
          · exact h
          · exact absurd h h2
        refine ⟨?_, pairwise_insert_key key rest hrest⟩
        intro x hx
        rcases (mem_insert_key x key rest).mp hx with rfl | hx
        · exact hlt
        · exact hk x hx

theorem paths_set_excerpts (key : PathKey) (ranges : List (Nat × Nat)) :
    ∀ (v : MergedView),
      paths (set_excerpts_for_path key ranges v).1 = insert_key key (paths v)
  | [] => rfl
  | e :: rest => by
    simp only [set_excerpts_for_path, insert_key, paths_cons]
    by_cases h1 : e.key = key
    · rw [if_pos h1, if_pos h1, paths_cons, h1]
      rfl
    · rw [if_neg h1, if_neg h1]
      by_cases h2 : PathKey.lt key e.key
      · rw [if_pos h2, if_pos h2, paths_cons, paths_cons]
        rfl
      · rw [if_neg h2, if_neg h2, paths_cons, paths_set_excerpts key ranges rest]
        rfl

theorem mem_paths_set_excerpts (x key : PathKey) (ranges : List (Nat × Nat))
    (v : MergedView) :
    x ∈ paths (set_excerpts_for_path key ranges v).1 ↔ x = key ∨ x ∈ paths v := by
  rw [paths_set_excerpts, mem_insert_key]

theorem set_excerpts_wf (key : PathKey) (ranges : List (Nat × Nat)) (v : MergedView)
    (h : viewWF v) : viewWF (set_excerpts_for_path key ranges v).1 := by
  unfold viewWF
  rw [paths_set_excerpts]
  exact pairwise_insert_key key (paths v) h

theorem set_excerpts_nonempty (key : PathKey) (ranges : List (Nat × Nat)) :
    ∀ (v : MergedView), (set_excerpts_for_path key ranges v).1 ≠ []
  | [] => by simp [set_excerpts_for_path]
  | e :: rest => by
    simp only [set_excerpts_for_path]
    by_cases h1 : e.key = key
    · rw [if_pos h1]; simp
    · rw [if_neg h1]
      by_cases h2 : PathKey.lt key e.key
      · rw [if_pos h2]; simp
      · rw [if_neg h2]; simp

theorem set_excerpts_snd_of_not_mem (key : PathKey) (ranges : List (Nat × Nat)) :
    ∀ (v : MergedView), key ∉ paths v → (set_excerpts_for_path key ranges v).2 = true
  | [], _ => rfl
  | e :: rest, h => by
    rw [paths_cons, List.mem_cons] at h
    push_neg at h
    simp only [set_excerpts_for_path]
    rw [if_neg (fun he => h.1 he.symm)]
    by_cases h2 : PathKey.lt key e.key
    · rw [if_pos h2]
    · rw [if_neg h2]
      exact set_excerpts_snd_of_not_mem key ranges rest h.2

theorem lookup_cons (e : Excerpt) (v : MergedView) (k : PathKey) :
    lookup_ranges (e :: v) k = if e.key = k then some e.ranges else lookup_ranges v k := by
  by_cases h : e.key = k
  · rw [if_pos h]
    unfold lookup_ranges
    rw [List.find?_cons_of_pos _ (by simp [h])]
    rfl
  · rw [if_neg h]
    unfold lookup_ranges
    rw [List.find?_cons_of_neg _ (by simp [h])]

theorem lookup_some_mem {v : MergedView} {k : PathKey} {r : List (Nat × Nat)}
    (h : lookup_ranges v k = some r) : k ∈ paths v := by
  induction v with
  | nil => simp [lookup_ranges] at h
  | cons e rest ih =>
    rw [lookup_cons] at h
    by_cases he : e.key = k
    · rw [paths_cons]; exact he ▸ List.mem_cons_self _ _
    · rw [if_neg he] at h
      rw [paths_cons]
      exact List.mem_cons_of_mem _ (ih h)

theorem lookup_set_self (key : PathKey) (ranges : List (Nat × Nat)) :
    ∀ (v : MergedView),
      lookup_ranges (set_excerpts_for_path key ranges v).1 key = some ranges
  | [] => by
    simp only [set_excerpts_for_path]
    rw [lookup_cons, if_pos rfl]
  | e :: rest => by
    simp only [set_excerpts_for_path]
    by_cases h1 : e.key = key
    · rw [if_pos h1, lookup_cons, if_pos rfl]
    · rw [if_neg h1]
      by_cases h2 : PathKey.lt key e.key
      · rw [if_pos h2, lookup_cons, if_pos rfl]
      · rw [if_neg h2, lookup_cons, if_neg h1]
        exact lookup_set_self key ranges rest

theorem lookup_set_other {k' key : PathKey} (h : k' ≠ key) (ranges : List (Nat × Nat)) :
    ∀ (v : MergedView),
      lookup_ranges (set_excerpts_for_path key ranges v).1 k' = lookup_ranges v k'
  | [] => by
    simp only [set_excerpts_for_path]
    rw [lookup_cons, if_neg (fun he => h he.symm)]
  | e :: rest => by
    simp only [set_excerpts_for_path]
    by_cases h1 : e.key = key
    · rw [if_pos h1, lookup_cons, lookup_cons,
        if_neg (fun he => h he.symm), if_neg (fun he => h (he.symm.trans h1))]
    · rw [if_neg h1]
      by_cases h2 : PathKey.lt key e.key
      · rw [if_pos h2, lookup_cons, if_neg (fun he => h he.symm), lookup_cons]
      · rw [if_neg h2, lookup_cons, lookup_cons]
        by_cases h3 : e.key = k'
        · rw [if_pos h3, if_pos h3]
        · rw [if_neg h3, if_neg h3]
          exact lookup_set_other h ranges rest

theorem set_excerpts_id {key : PathKey} {ranges : List (Nat × Nat)} :
    ∀ {v : MergedView}, viewWF v → lookup_ranges v key = some ranges →
      (set_excerpts_for_path key ranges v).1 = v
  | [], _, hl => by simp [lookup_ranges] at hl
  | e :: rest, hwf, hl => by
    rw [lookup_cons] at hl
    simp only [set_excerpts_for_path]
    by_cases h1 : e.key = key
    · rw [if_pos h1]
      rw [if_pos h1] at hl
      have : e.ranges = ranges := by injection hl
      cases e
      simp_all
    · rw [if_neg h1]
      rw [if_neg h1] at hl
      have hmem : key ∈ paths rest := lookup_some_mem hl
      unfold viewWF at hwf
      rw [paths_cons, List.pairwise_cons] at hwf
      have hgt : PathKey.lt e.key key := hwf.1 key hmem
      rw [if_neg (pk_lt_asymm hgt)]
      rw [set_excerpts_id hwf.2 hl]

/-! ### Removal, status-scan and registration lemmas -/

theorem wf_nodup {v : MergedView} (h : viewWF v) : (paths v).Nodup := by
  unfold viewWF at h
  refine h.imp ?_
  intro a b hab he
  exact pk_lt_irrefl b (he ▸ hab)

theorem mem_paths_remove (x key : PathKey) (v : MergedView) :
    x ∈ paths (remove_excerpts_for_path key v) ↔ x ∈ paths v ∧ x ≠ key := by
  unfold remove_excerpts_for_path paths
  constructor
  · intro hx
    obtain ⟨e, he, rfl⟩ := List.mem_map.mp hx
    have hf := List.mem_filter.mp he
    refine ⟨List.mem_map.mpr ⟨e, hf.1, rfl⟩, by simpa using hf.2⟩
  · rintro ⟨hx, hne⟩
    obtain ⟨e, he, rfl⟩ := List.mem_map.mp hx
    exact List.mem_map.mpr ⟨e, List.mem_filter.mpr ⟨he, by simpa using hne⟩, rfl⟩

theorem remove_wf (key : PathKey) (v : MergedView) (h : viewWF v) :
    viewWF (remove_excerpts_for_path key v) := by
  unfold viewWF paths remove_excerpts_for_path at *
  rw [List.pairwise_map] at h ⊢
  exact List.Pairwise.sublist (List.filter_sublist _) h

theorem mem_paths_remove_fold (x : PathKey) : ∀ (ks : List PathKey) (v : MergedView),
    x ∈ paths (ks.foldl (fun v k => remove_excerpts_for_path k v) v) ↔
      x ∈ paths v ∧ x ∉ ks
  | [], v => by simp
  | k :: ks, v => by
    simp only [List.foldl_cons, mem_paths_remove_fold x ks, mem_paths_remove, List.mem_cons]
    tauto

theorem remove_fold_wf : ∀ (ks : List PathKey) (v : MergedView), viewWF v →
    viewWF (ks.foldl (fun v k => remove_excerpts_for_path k v) v)
  | [], _, h => h
  | k :: ks, v, h => remove_fold_wf ks _ (remove_wf k v h)

theorem gather_snd_spec (repo : Repo) : ∀ (status : List ChangeEntry) (stale : List PathKey),
    (gather repo status stale).2 = status.filterMap (spec_request repo)
  | [], _ => rfl
  | entry :: rest, stale => by
    by_cases hc : entry.status.has_changes
    · cases hm : repo.repo_path_to_project_path entry.repo_path
      · simp [gather, spec_request, hc, hm, gather_snd_spec repo rest]
      · simp [gather, spec_request, spec_namespace, hc, hm, gather_snd_spec repo rest]
    · simp [gather, spec_request, hc, gather_snd_spec repo rest]

theorem gather_snd_keys (repo : Repo) (stale : List PathKey) :
    (gather repo repo.status stale).2.map LoadRequest.path_key = target_keys repo := by
  unfold target_keys issued_requests
  rw [gather_snd_spec, gather_snd_spec]

theorem gather_fst_mem (repo : Repo) : ∀ (status : List ChangeEntry) (stale : List PathKey),
    stale.Nodup → ∀ (k : PathKey),
      (k ∈ (gather repo status stale).1 ↔
        k ∈ stale ∧ k ∉ (gather repo status stale).2.map LoadRequest.path_key)
  | [], stale, _, k => by simp [gather]
  | entry :: rest, stale, hnd, k => by
    by_cases hc : entry.status.has_changes
    · cases hm : repo.repo_path_to_project_path entry.repo_path with
      | none =>
        simp only [gather, hc, if_true, hm]
        exact gather_fst_mem repo rest stale hnd k
      | some pp =>
        have hrec := gather_fst_mem repo rest
          (stale.erase (PathKey.namespaced
            (if repo.has_conflict entry.repo_path then CONFLICT_NAMESPACE
             else if entry.status.is_created then NEW_NAMESPACE
             else TRACKED_NAMESPACE) entry.repo_path))
          (hnd.erase _) k
        rw [List.Nodup.mem_erase_iff hnd] at hrec
        simp only [gather, hc, hm, if_true, eq_self_iff_true, List.map_cons, List.mem_cons]
        rw [hrec]
        tauto
    · simp only [gather, hc, if_false]
      exact gather_fst_mem repo rest stale hnd k

theorem location_some {v : MergedView} {key : PathKey} (h : key ∈ paths v) :
    location_for_path v key = some key := by
  unfold location_for_path
  rw [if_pos h]

theorem location_none {v : MergedView} {key : PathKey} (h : key ∉ paths v) :
    location_for_path v key = none := by
  unfold location_for_path
  rw [if_neg h]

theorem move_to_path_of_mem {key : PathKey} {s : ProjectDiff}
    (h : key ∈ paths s.multibuffer) :
    move_to_path key s = { s with selection := some key } := by
  unfold move_to_path
  rw [location_some h]

theorem move_to_path_of_not_mem {key : PathKey} {s : ProjectDiff}
    (h : key ∉ paths s.multibuffer) :
    move_to_path key s = { s with pending_scroll := some key } := by
  unfold move_to_path
  rw [location_none h]

theorem move_to_path_multibuffer (key : PathKey) (s : ProjectDiff) :
    (move_to_path key s).multibuffer = s.multibuffer := by
  unfold move_to_path
  cases location_for_path s.multibuffer key <;> rfl

theorem move_to_path_folded (key : PathKey) (s : ProjectDiff) :
    (move_to_path key s).folded = s.folded := by
  unfold move_to_path
  cases location_for_path s.multibuffer key <;> rfl

theorem move_to_path_focus (key : PathKey) (s : ProjectDiff) :
    (move_to_path key s).focus = s.focus := by
  unfold move_to_path
  cases location_for_path s.multibuffer key <;> rfl

theorem isEmpty_false {l : MergedView} (h : l ≠ []) : l.isEmpty = false := by
  cases l
  · exact absurd rfl h
  · rfl

theorem register_multibuffer (d : DiffBuffer) (s : ProjectDiff) :
    (register_buffer d s).multibuffer =
      (set_excerpts_for_path d.path_key d.hunk_ranges s.multibuffer).1 := by
  unfold register_buffer
  dsimp only
  split
  · rw [move_to_path_multibuffer]
  · rfl

theorem register_pending (d : DiffBuffer) (s : ProjectDiff) :
    (register_buffer d s).pending_scroll = s.pending_scroll := by
  unfold register_buffer
  dsimp only
  split
  · rw [move_to_path_of_mem ((mem_paths_set_excerpts _ _ _ _).mpr (Or.inl rfl))]
  · rfl

theorem register_focus (d : DiffBuffer) (s : ProjectDiff) :
    (register_buffer d s).focus =
      focus_after_register
        (set_excerpts_for_path d.path_key d.hunk_ranges s.multibuffer).1.isEmpty
        s.focus := by
  unfold register_buffer
  dsimp only
  split
  · rw [move_to_path_focus]
  · rfl

theorem register_folded (d : DiffBuffer) (s : ProjectDiff) :
    (register_buffer d s).folded =
      (if (set_excerpts_for_path d.path_key d.hunk_ranges s.multibuffer).2
            && d.file_status.is_deleted then
        d.path_key :: s.folded
      else s.folded) := by
  unfold register_buffer
  dsimp only
  split
  · rw [move_to_path_folded]
  · rfl

theorem register_view_ne_nil (d : DiffBuffer) (s : ProjectDiff) :
    (register_buffer d s).multibuffer ≠ [] := by
  rw [register_multibuffer]
  exact set_excerpts_nonempty _ _ _

theorem register_selection_of_pending (d : DiffBuffer) (s : ProjectDiff)
    (h : s.pending_scroll = some d.path_key) :
    (register_buffer d s).selection = some d.path_key := by
  unfold register_buffer
  dsimp only
  rw [if_pos h]
  rw [move_to_path_of_mem ((mem_paths_set_excerpts _ _ _ _).mpr (Or.inl rfl))]

theorem register_selection_preserve (d : DiffBuffer) (s : ProjectDiff)
    (hne : s.pending_scroll ≠ some d.path_key) (hmb : s.multibuffer ≠ []) :
    (register_buffer d s).selection = s.selection := by
  unfold register_buffer
  dsimp only
  rw [if_neg hne]
  have hc : ¬ (s.multibuffer.isEmpty = true) := by
    rw [isEmpty_false hmb]
    exact Bool.false_ne_true
  rw [if_neg hc]

theorem register_all_cons (d : DiffBuffer) (c : List DiffBuffer) (s : ProjectDiff) :
    register_all (d :: c) s = register_all c (register_buffer d s) := rfl

theorem register_all_pending : ∀ (c : List DiffBuffer) (s : ProjectDiff),
    (register_all c s).pending_scroll = s.pending_scroll
  | [], _ => rfl
  | d :: c, s => by
    rw [register_all_cons, register_all_pending c, register_pending]

theorem register_all_mem (x : PathKey) : ∀ (c : List DiffBuffer) (s : ProjectDiff),
    x ∈ paths (register_all c s).multibuffer ↔
      x ∈ paths s.multibuffer ∨ x ∈ c.map DiffBuffer.path_key
  | [], s => by simp [register_all]
  | d :: c, s => by
    rw [register_all_cons, register_all_mem x c, register_multibuffer,
      mem_paths_set_excerpts]
    simp only [List.map_cons, List.mem_cons]
    tauto

theorem register_all_wf : ∀ (c : List DiffBuffer) (s : ProjectDiff),
    viewWF s.multibuffer → viewWF (register_all c s).multibuffer
  | [], _, h => h
  | d :: c, s, h => by
    rw [register_all_cons]
    exact register_all_wf c _ (by
      rw [register_multibuffer]
      exact set_excerpts_wf _ _ _ h)

theorem register_all_ne_nil : ∀ (c : List DiffBuffer) (s : ProjectDiff),
    s.multibuffer ≠ [] → (register_all c s).multibuffer ≠ []
  | [], _, h => h
  | d :: c, s, _ => by
    rw [register_all_cons]
    exact register_all_ne_nil c _ (register_view_ne_nil d s)

theorem register_all_lookup_preserve (key : PathKey) : ∀ (c : List DiffBuffer)
    (s : ProjectDiff), key ∉ c.map DiffBuffer.path_key →
    lookup_ranges (register_all c s).multibuffer key = lookup_ranges s.multibuffer key
  | [], _, _ => rfl
  | d :: c, s, h => by
    rw [List.map_cons, List.mem_cons] at h
    push_neg at h
    rw [register_all_cons, register_all_lookup_preserve key c _ h.2,
      register_multibuffer, lookup_set_other h.1 _ _]

theorem register_all_lookup (d : DiffBuffer) : ∀ (c : List DiffBuffer) (s : ProjectDiff),
    d ∈ c → (∀ d2 ∈ c, d2.path_key = d.path_key → d2 = d) →
    lookup_ranges (register_all c s).multibuffer d.path_key = some d.hunk_ranges
  | [], _, hmem, _ => absurd hmem (List.not_mem_nil d)
  | d1 :: c, s, hmem, huniq => by
    rw [register_all_cons]
    by_cases hin : d ∈ c
    · exact register_all_lookup d c _ hin
        (fun d2 h2 => huniq d2 (List.mem_cons_of_mem _ h2))
    · have hd : d1 = d := by
        rcases List.mem_cons.mp hmem with h | h
        · exact h.symm
        · exact absurd h hin
      subst hd
      have hnotin : d1.path_key ∉ c.map DiffBuffer.path_key := by
        intro hk
        obtain ⟨d2, hd2, he⟩ := List.mem_map.mp hk
        exact hin ((huniq d2 (List.mem_cons_of_mem _ hd2) he) ▸ hd2)
      rw [register_all_lookup_preserve _ c _ hnotin, register_multibuffer,
        lookup_set_self]

theorem register_all_selection_preserve : ∀ (c : List DiffBuffer) (s : ProjectDiff),
    s.multibuffer ≠ [] → (∀ d ∈ c, s.pending_scroll ≠ some d.path_key) →
    (register_all c s).selection = s.selection
  | [], _, _, _ => rfl
  | d :: c, s, hmb, hpd => by
    rw [register_all_cons]
    have h2 : ∀ d2 ∈ c, (register_buffer d s).pending_scroll ≠ some d2.path_key := by
      intro d2 hd2
      rw [register_pending]
      exact hpd d2 (List.mem_cons_of_mem _ hd2)
    rw [register_all_selection_preserve c _ (register_view_ne_nil d s) h2,
      register_selection_preserve d s (hpd d (List.mem_cons_self _ _)) hmb]

theorem register_all_selection_pending (k : PathKey) : ∀ (c : List DiffBuffer)
    (s : ProjectDiff), s.pending_scroll = some k → k ∈ c.map DiffBuffer.path_key →
    (register_all c s).selection = some k
  | [], _, _, hmem => absurd hmem (by simp)
  | d :: c, s, hp, hmem => by
    rw [register_all_cons]
    by_cases hk : k ∈ c.map DiffBuffer.path_key
    · exact register_all_selection_pending k c _ (by rw [register_pending]; exact hp) hk
    · have hdk : d.path_key = k := by
        rw [List.map_cons, List.mem_cons] at hmem
        rcases hmem with h | h
        · exact h.symm
        · exact absurd h hk
      have hsel : (register_buffer d s).selection = some k := by
        rw [register_selection_of_pending d s (by rw [hdk]; exact hp), hdk]
      have hpd2 : ∀ d2 ∈ c, (register_buffer d s).pending_scroll ≠ some d2.path_key := by
        intro d2 hd2 hcon
        rw [register_pending, hp] at hcon
        have he : k = d2.path_key := by injection hcon
        exact hk (List.mem_map.mpr ⟨d2, hd2, he.symm⟩)
      rw [register_all_selection_preserve c _ (register_view_ne_nil d s) hpd2, hsel]

theorem sorted_ext : ∀ (l1 l2 : List PathKey), l1.Pairwise PathKey.lt →
    l2.Pairwise PathKey.lt → (∀ x, x ∈ l1 ↔ x ∈ l2) → l1 = l2
  | [], l2, _, _, hm => by
    symm
    rw [List.eq_nil_iff_forall_not_mem]
    intro x hx
    exact List.not_mem_nil x ((hm x).mpr hx)
  | a :: l1, l2, h1, h2, hm => by
    cases l2 with
    | nil => exact absurd ((hm a).mp (List.mem_cons_self a l1)) (List.not_mem_nil a)
    | cons b l2 =>
      rw [List.pairwise_cons] at h1 h2
      have hab : a = b := by
        rcases List.mem_cons.mp ((hm a).mp (List.mem_cons_self a l1)) with h | h
        · exact h
        · have hba : PathKey.lt b a := h2.1 a h
          rcases List.mem_cons.mp ((hm b).mpr (List.mem_cons_self b l2)) with h3 | h3
          · exact h3.symm
          · exact absurd (h1.1 b h3) (pk_lt_asymm hba)
      subst hab
      have hm2 : ∀ x, x ∈ l1 ↔ x ∈ l2 := by
        intro x
        constructor
        · intro hx
          have hne : x ≠ a := fun he => pk_lt_irrefl a (he ▸ h1.1 x hx)
          rcases List.mem_cons.mp ((hm x).mp (List.mem_cons_of_mem a hx)) with h | h
          · exact absurd h hne
          · exact h
        · intro hx
          have hne : x ≠ a := fun he => pk_lt_irrefl a (he ▸ h2.1 x hx)
          rcases List.mem_cons.mp ((hm x).mpr (List.mem_cons_of_mem a hx)) with h | h
          · exact absurd h hne
          · exact h
      rw [sorted_ext l1 l2 h1.2 h2.2 hm2]

theorem load_buffers_none (s : ProjectDiff) :
    load_buffers none s = ({ s with multibuffer := [] }, []) := rfl

theorem load_buffers_some (repo : Repo) (s : ProjectDiff) :
    load_buffers (some repo) s =
      ({ s with
          multibuffer := (gather repo repo.status (paths s.multibuffer)).1.foldl
            (fun v k => remove_excerpts_for_path k v) s.multibuffer },
        (gather repo repo.status (paths s.multibuffer)).2) := rfl

theorem load_buffers_pending (repo? : Option Repo) (s : ProjectDiff) :
    (load_buffers repo? s).1.pending_scroll = s.pending_scroll := by
  cases repo? <;> rfl

theorem mem_paths_load_buffers (repo : Repo) (s : ProjectDiff)
    (hwf : viewWF s.multibuffer) (k : PathKey) :
    k ∈ paths (load_buffers (some repo) s).1.multibuffer ↔
      k ∈ paths s.multibuffer ∧ k ∈ target_keys repo := by
  rw [load_buffers_some]
  dsimp only
  rw [mem_paths_remove_fold, gather_fst_mem repo repo.status (paths s.multibuffer)
    (wf_nodup hwf) k, gather_snd_keys]
  tauto

theorem load_buffers_wf (repo? : Option Repo) (s : ProjectDiff)
    (h : viewWF s.multibuffer) : viewWF (load_buffers repo? s).1.multibuffer := by
  cases repo? with
  | none => exact List.Pairwise.nil
  | some repo =>
    rw [load_buffers_some]
    exact remove_fold_wf _ _ h

theorem run_pass_def (repo? : Option Repo) (c : List DiffBuffer) (s : ProjectDiff) :
    run_pass repo? c s =
      { register_all c (load_buffers repo? s).1 with pending_scroll := none } := rfl

theorem loaded_value_key {resolve : LoadRequest → Option (List (Nat × Nat))}
    {r : LoadRequest} {d : DiffBuffer} (h : loaded_value resolve r = some d) :
    d.path_key = r.path_key := by
  unfold loaded_value at h
  cases hr : resolve r with
  | none => rw [hr] at h; cases h
  | some rg => rw [hr] at h; cases h; rfl

theorem loaded_keys_all (resolve : LoadRequest → Option (List (Nat × Nat))) :
    ∀ (reqs : List LoadRequest), (∀ r ∈ reqs, resolve r ≠ none) →
      (reqs.filterMap (loaded_value resolve)).map DiffBuffer.path_key =
        reqs.map LoadRequest.path_key
  | [], _ => rfl
  | r :: reqs, hall => by
    cases hr : resolve r with
    | none => exact absurd hr (hall r (List.mem_cons_self _ _))
    | some rg =>
      rw [List.filterMap_cons]
      have hl : loaded_value resolve r =
          some { path_key := r.path_key, hunk_ranges := rg, file_status := r.file_status } := by
        unfold loaded_value
        rw [hr]
        rfl
      rw [hl, List.map_cons, List.map_cons,
        loaded_keys_all resolve reqs (fun r2 h2 => hall r2 (List.mem_cons_of_mem _ h2))]

theorem loaded_keys_sub (resolve : LoadRequest → Option (List (Nat × Nat)))
    (reqs : List LoadRequest) (k : PathKey)
    (h : k ∈ (reqs.filterMap (loaded_value resolve)).map DiffBuffer.path_key) :
    k ∈ reqs.map LoadRequest.path_key := by
  obtain ⟨d, hd, rfl⟩ := List.mem_map.mp h
  obtain ⟨r, hr, he⟩ := List.mem_filterMap.mp hd
  rw [loaded_value_key he]
  exact List.mem_map.mpr ⟨r, hr, rfl⟩

theorem run_pass_mem_general (repo : Repo) (c : List DiffBuffer) (s : ProjectDiff)
    (hwf : viewWF s.multibuffer) (k : PathKey) :
    k ∈ paths (run_pass (some repo) c s).multibuffer ↔
      (k ∈ paths s.multibuffer ∧ k ∈ target_keys repo) ∨
        k ∈ c.map DiffBuffer.path_key := by
  rw [run_pass_def]
  dsimp only
  rw [register_all_mem, mem_paths_load_buffers repo s hwf]

theorem run_pass_wf (repo? : Option Repo) (c : List DiffBuffer) (s : ProjectDiff)
    (hwf : viewWF s.multibuffer) : viewWF (run_pass repo? c s).multibuffer := by
  rw [run_pass_def]
  dsimp only
  exact register_all_wf c _ (load_buffers_wf repo? s hwf)

theorem loaded_keys_nodup (resolve : LoadRequest → Option (List (Nat × Nat))) :
    ∀ (reqs : List LoadRequest), (reqs.map LoadRequest.path_key).Nodup →
      ((reqs.filterMap (loaded_value resolve)).map DiffBuffer.path_key).Nodup
  | [], _ => List.nodup_nil
  | r :: reqs, hnd => by
    rw [List.map_cons, List.nodup_cons] at hnd
    rw [List.filterMap_cons]
    cases hr : loaded_value resolve r with
    | none => exact loaded_keys_nodup resolve reqs hnd.2
    | some d =>
      rw [List.map_cons, List.nodup_cons]
      refine ⟨?_, loaded_keys_nodup resolve reqs hnd.2⟩
      intro hk
      have hsub := loaded_keys_sub resolve reqs d.path_key hk
      rw [loaded_value_key hr] at hsub
      exact hnd.1 hsub

theorem register_all_id : ∀ (c : List DiffBuffer) (s : ProjectDiff),
    viewWF s.multibuffer →
    (∀ d ∈ c, lookup_ranges s.multibuffer d.path_key = some d.hunk_ranges) →
    (register_all c s).multibuffer = s.multibuffer
  | [], _, _, _ => rfl
  | d :: c, s, hwf, hlk => by
    rw [register_all_cons]
    have hmb : (register_buffer d s).multibuffer = s.multibuffer := by
      rw [register_multibuffer]
      exact set_excerpts_id hwf (hlk d (List.mem_cons_self _ _))
    rw [register_all_id c _ (by rw [hmb]; exact hwf)
      (by intro d2 h2; rw [hmb]; exact hlk d2 (List.mem_cons_of_mem _ h2)), hmb]

theorem run_pass_multibuffer (repo? : Option Repo) (c : List DiffBuffer)
    (s : ProjectDiff) :
    (run_pass repo? c s).multibuffer =
      (register_all c (load_buffers repo? s).1).multibuffer := rfl

theorem second_pass_id (repo : Repo) (c2 : List DiffBuffer) (s1 : ProjectDiff)
    (hwf1 : viewWF s1.multibuffer)
    (hsub : ∀ k ∈ paths s1.multibuffer, k ∈ target_keys repo)
    (hlkp : ∀ d ∈ c2, lookup_ranges s1.multibuffer d.path_key = some d.hunk_ranges) :
    (run_pass (some repo) c2 s1).multibuffer = s1.multibuffer := by
  have hstale : (gather repo repo.status (paths s1.multibuffer)).1 = [] := by
    rw [List.eq_nil_iff_forall_not_mem]
    intro k hk
    rw [gather_fst_mem repo repo.status _ (wf_nodup hwf1) k, gather_snd_keys] at hk
    exact hk.2 (hsub k hk.1)
  have hlb2 : (load_buffers (some repo) s1).1.multibuffer = s1.multibuffer := by
    rw [load_buffers_some]
    dsimp only
    rw [hstale]
    rfl
  rw [run_pass_multibuffer]
  rw [register_all_id c2 _ (by rw [hlb2]; exact hwf1)
    (by intro d hd; rw [hlb2]; exact hlkp d hd), hlb2]

theorem signal_iterate_succ : ∀ (m : Nat) (b : Bool),
    Nat.iterate signal (m + 1) b = true
  | 0, _ => rfl
  | m + 1, b => signal_iterate_succ m (signal b)

theorem scan_foldl : ∀ (l : List DiffHunk) (acc : Bool × Bool),
    l.foldl scan_step acc =
      (acc.1 || l.any (fun h => indicates_staged h.secondary_status),
        acc.2 || l.any (fun h => indicates_unstaged h.secondary_status))
  | [], acc => by simp
  | h :: l, acc => by
    rw [List.foldl_cons, scan_foldl l (scan_step acc h), List.any_cons, List.any_cons]
    cases hs : h.secondary_status <;>
      simp [scan_step, hs, indicates_staged, indicates_unstaged, Bool.or_assoc]

/-! ### Claim theorems -/

/-- C1: after one complete refresh pass in which every issued load succeeds,
the set of keys in the merged view equals exactly the set of keys the latest
status query yields; moreover every key still present immediately after
`load_buffers` (before any load completion is processed) already lies in the
new status key set, so stale keys are removed up front. -/
theorem C1_pruning (repo : Repo) (resolve : LoadRequest → Option (List (Nat × Nat)))
    (c : List DiffBuffer) (s : ProjectDiff)
    (hwf : viewWF s.multibuffer)
    (hperm : c.Perm ((issued_requests repo).filterMap (loaded_value resolve)))
    (hall : ∀ r ∈ issued_requests repo, resolve r ≠ none) :
    (∀ k, k ∈ paths (run_pass (some repo) c s).multibuffer ↔ k ∈ target_keys repo) ∧
    (∀ k, k ∈ paths (load_buffers (some repo) s).1.multibuffer →
      k ∈ target_keys repo) := by
  constructor
  · intro k
    rw [run_pass_mem_general repo c s hwf k]
    have hmap := (hperm.map DiffBuffer.path_key).mem_iff (a := k)
    rw [loaded_keys_all resolve _ hall] at hmap
    unfold target_keys
    rw [hmap]
    tauto
  · intro k hk
    exact ((mem_paths_load_buffers repo s hwf k).mp hk).2

/-- Witness for C1: a previous view tracking a, b, c against a status that
only reports b; after the pass, b is in the view and a is not. -/
theorem C1_pruning_witness :
    viewWF st_abc.multibuffer ∧
    (({ ns := "1", path := "b" } : PathKey) ∈
        paths (run_pass (some repo_b) loaded_b st_abc).multibuffer ↔
      ({ ns := "1", path := "b" } : PathKey) ∈ target_keys repo_b) ∧
    (({ ns := "1", path := "a" } : PathKey) ∈
        paths (run_pass (some repo_b) loaded_b st_abc).multibuffer ↔
      ({ ns := "1", path := "a" } : PathKey) ∈ target_keys repo_b) :=
  ⟨by decide,
    (C1_pruning repo_b resolve_one loaded_b st_abc (by decide) (List.Perm.refl _)
      (by decide)).1 _,
    (C1_pruning repo_b resolve_one loaded_b st_abc (by decide) (List.Perm.refl _)
      (by decide)).1 _⟩

/-- C2: the final visible order of the merged view is the sort order of its
PathKeys, and it does not depend on the order in which the pass's load
completions are processed: any two completion orders of the same resolved
loads yield the same key sequence, and that sequence is strictly ascending in
the `(namespace, path)` order. -/
theorem C2_ordering (repo : Repo) (resolve : LoadRequest → Option (List (Nat × Nat)))
    (c1 c2 : List DiffBuffer) (s : ProjectDiff)
    (hwf : viewWF s.multibuffer)
    (h1 : c1.Perm ((issued_requests repo).filterMap (loaded_value resolve)))
    (h2 : c2.Perm ((issued_requests repo).filterMap (loaded_value resolve))) :
    paths (run_pass (some repo) c1 s).multibuffer =
      paths (run_pass (some repo) c2 s).multibuffer ∧
    (paths (run_pass (some repo) c1 s).multibuffer).Pairwise PathKey.lt := by
  have hwf1 := run_pass_wf (some repo) c1 s hwf
  have hwf2 := run_pass_wf (some repo) c2 s hwf
  constructor
  · apply sorted_ext _ _ hwf1 hwf2
    intro x
    rw [run_pass_mem_general repo c1 s hwf x, run_pass_mem_general repo c2 s hwf x]
    have hmm : x ∈ c1.map DiffBuffer.path_key ↔ x ∈ c2.map DiffBuffer.path_key := by
      rw [(h1.map DiffBuffer.path_key).mem_iff, (h2.map DiffBuffer.path_key).mem_iff]
    rw [hmm]
  · exact hwf1

/-- Witness for C2: loads for a new, a tracked and a conflicted file complete
in reverse issue order, yet the final order is conflicted, tracked, new. -/
theorem C2_ordering_witness :
    paths (run_pass (some repo_xyz) loaded_xyz st_empty).multibuffer =
      paths (run_pass (some repo_xyz) loaded_xyz.reverse st_empty).multibuffer ∧
    paths (run_pass (some repo_xyz) loaded_xyz.reverse st_empty).multibuffer =
      [{ ns := "0", path := "z" }, { ns := "1", path := "y" },
        { ns := "2", path := "x" }] :=
  ⟨(C2_ordering repo_xyz resolve_one loaded_xyz loaded_xyz.reverse st_empty (by decide)
      (List.Perm.refl _) (List.reverse_perm _)).1,
    by decide⟩

/-- C3: the change coalescer is single-flight: the watch slot after any
positive number of signals equals the slot after one signal (only "pending
work exists" is stored, never a count), and N signals arriving while one
refresh pass is in flight cause exactly one additional pass afterwards, not
N; the reader model runs passes strictly one after another. -/
theorem C3_coalescing (n : Nat) (ks : List Nat) (b : Bool) (hn : 1 ≤ n) :
    Nat.iterate signal n b = true ∧
    Nat.iterate signal n b = Nat.iterate signal 1 b ∧
    reader_loop true (n :: ks) = reader_loop true (1 :: ks) ∧
    reader_loop true [n] = 2 := by
  match n, hn with
  | m + 1, _ =>
    refine ⟨signal_iterate_succ m b, ?_, ?_, ?_⟩
    · rw [signal_iterate_succ m b, signal_iterate_succ 0 b]
    · simp only [reader_loop, signal_iterate_succ]
    · simp only [reader_loop, signal_iterate_succ]

/-- Witness for C3: five signals during a refresh produce exactly one more
pass (two in total), and the slot equals the one-signal slot. -/
theorem C3_coalescing_witness :
    Nat.iterate signal 5 false = true ∧ reader_loop true [5] = 2 :=
  ⟨(C3_coalescing 5 [] false (by decide)).1,
    (C3_coalescing 5 [] false (by decide)).2.2.2⟩

/-- C4: every load request issued by the status scan carries a key whose
namespace follows the three-way policy (conflict first, then newly created,
else tracked), and `move_to_entry` classifies an entry with the identical
policy. -/
theorem C4_classification :
    (∀ (repo : Repo) (req : LoadRequest), req ∈ issued_requests repo →
      req.path_key = PathKey.namespaced
        (spec_namespace (repo.has_conflict req.path_key.path)
          req.file_status.is_created)
        req.path_key.path) ∧
    (∀ (repo : Repo) (entry : ChangeEntry) (s : ProjectDiff),
      move_to_entry (some repo) entry s =
        move_to_path (PathKey.namespaced
          (spec_namespace (repo.has_conflict entry.repo_path)
            entry.status.is_created)
          entry.repo_path) s) := by
  constructor
  · intro repo req hreq
    unfold issued_requests at hreq
    rw [gather_snd_spec] at hreq
    obtain ⟨e, _, hr⟩ := List.mem_filterMap.mp hreq
    unfold spec_request at hr
    by_cases hc : e.status.has_changes
    · rw [if_pos hc] at hr
      cases hm : repo.repo_path_to_project_path e.repo_path with
      | none => rw [hm] at hr; cases hr
      | some pp =>
        rw [hm] at hr
        simp only [Option.map_some'] at hr
        have he := Option.some.inj hr
        subst he
        rfl
    · rw [if_neg hc] at hr
      cases hr
  · intro repo entry s
    rfl

/-- Witness for C4: the request issued for the new untracked file x of
repo_xyz carries the New namespace, as the policy prescribes. -/
theorem C4_classification_witness :
    req_x ∈ issued_requests repo_xyz ∧
    req_x.path_key = PathKey.namespaced
      (spec_namespace (repo_xyz.has_conflict req_x.path_key.path)
        req_x.file_status.is_created)
      req_x.path_key.path :=
  ⟨by decide, C4_classification.1 repo_xyz req_x (by decide)⟩

/-- C5: the derived action state enables stage exactly when some hunk
intersecting the active range set is fully or partially unstaged, and
unstage exactly when some such hunk is fully or partially staged (an
overlapping hunk counts for both); concretely, with one fully staged and one
fully unstaged hunk, a range covering only the staged hunk gives
stage=false, unstage=true, and a range covering both gives stage=true,
unstage=true. -/
theorem C5_action_state :
    (∀ (ed : EditorState) (sa ua : Bool),
      (button_states ed sa ua).stage =
        (diff_hunks_in_ranges ed.hunks (active_ranges ed)).any
          (fun h => indicates_unstaged h.secondary_status) ∧
      (button_states ed sa ua).unstage =
        (diff_hunks_in_ranges ed.hunks (active_ranges ed)).any
          (fun h => indicates_staged h.secondary_status)) ∧
    (button_states ed_only_staged false false).stage = false ∧
    (button_states ed_only_staged false false).unstage = true ∧
    (button_states ed_both false false).stage = true ∧
    (button_states ed_both false false).unstage = true := by
  refine ⟨fun ed sa ua => ?_, by decide, by decide, by decide, by decide⟩
  unfold button_states scan_hunks
  dsimp only
  rw [scan_foldl]
  simp

/-- C6: the pending navigation target is a single-shot, last-request-wins
slot: a request for a key with no excerpt records that key (overwriting any
previous target); every completed refresh pass clears the slot
unconditionally; and when the pending key's load is registered during the
pass, the selection ends on that key by the end of the pass. -/
theorem C6_navigation :
    (∀ (s : ProjectDiff) (key : PathKey),
      location_for_path s.multibuffer key = none →
      (move_to_path key s).pending_scroll = some key) ∧
    (∀ (repo? : Option Repo) (c : List DiffBuffer) (s : ProjectDiff),
      (run_pass repo? c s).pending_scroll = none) ∧
    (∀ (repo? : Option Repo) (c : List DiffBuffer) (s : ProjectDiff) (k : PathKey),
      s.pending_scroll = some k → k ∈ c.map DiffBuffer.path_key →
      (run_pass repo? c s).selection = some k) := by
  refine ⟨?_, ?_, ?_⟩
  · intro s key h
    unfold move_to_path
    rw [h]
  · intro repo? c s
    rfl
  · intro repo? c s k hp hm
    rw [run_pass_def]
    dsimp only
    exact register_all_selection_pending k c _
      (by rw [load_buffers_pending]; exact hp) hm

/-- Witness for C6: requesting a missing key records it; a pass with no
repository clears the slot; a pass whose loads include the pending key ends
with that key selected. -/
theorem C6_navigation_witness :
    (move_to_path k9 st_empty).pending_scroll = some k9 ∧
    (run_pass none [] st_empty).pending_scroll = none ∧
    (run_pass (some repo_b) loaded_b
        { st_empty with pending_scroll := some { ns := "1", path := "b" } }).selection =
      some { ns := "1", path := "b" } :=
  ⟨C6_navigation.1 st_empty k9 (by decide),
    C6_navigation.2.1 none [] st_empty,
    C6_navigation.2.2 (some repo_b) loaded_b _ _ rfl (by decide)⟩

/-- C7: the status scan issues one load request per entry exactly when the
entry's status has changes and its repo path maps to an openable project
path: the issued request list is literally the filterMap of that per-entry
rule, an unchanged entry contributes nothing, and an unmappable entry is
silently skipped without an error or a load. -/
theorem C7_load_filter :
    (∀ (repo : Repo) (stale : List PathKey),
      (gather repo repo.status stale).2 = repo.status.filterMap (spec_request repo)) ∧
    (∀ (repo : Repo) (entry : ChangeEntry), entry.status.has_changes = false →
      spec_request repo entry = none) ∧
    (∀ (repo : Repo) (entry : ChangeEntry),
      repo.repo_path_to_project_path entry.repo_path = none →
      spec_request repo entry = none) := by
  refine ⟨fun repo stale => gather_snd_spec repo repo.status stale, ?_, ?_⟩
  · intro repo entry h
    unfold spec_request
    rw [h]
    rfl
  · intro repo entry h
    unfold spec_request
    by_cases hc : entry.status.has_changes
    · rw [if_pos hc, h]
      rfl
    · rw [if_neg hc]

/-- Witness for C7: an unchanged entry and an unmappable entry both produce
no load request. -/
theorem C7_load_filter_witness :
    (gather repo_b repo_b.status []).2 = repo_b.status.filterMap (spec_request repo_b) ∧
    spec_request repo_b entry_unchanged = none ∧
    spec_request repo_unmappable { repo_path := "m", status := modified_status } = none :=
  ⟨C7_load_filter.1 repo_b [],
    C7_load_filter.2.1 repo_b entry_unchanged (by decide),
    C7_load_filter.2.2 repo_unmappable _ (by decide)⟩

/-- C8: reconciliation is idempotent per status snapshot: with the same
status entries and the same resolved diffs, running a second refresh pass
over the result of a first one leaves the merged view exactly as it was
(same keys, same ranges, no duplicates, no reordering), for any completion
orders of the two passes. -/
theorem C8_idempotent (repo : Repo) (resolve : LoadRequest → Option (List (Nat × Nat)))
    (c1 c2 : List DiffBuffer) (s : ProjectDiff)
    (hwf : viewWF s.multibuffer)
    (hnd : (target_keys repo).Nodup)
    (h1 : c1.Perm ((issued_requests repo).filterMap (loaded_value resolve)))
    (h2 : c2.Perm ((issued_requests repo).filterMap (loaded_value resolve))) :
    (run_pass (some repo) c2 (run_pass (some repo) c1 s)).multibuffer =
      (run_pass (some repo) c1 s).multibuffer ∧
    (paths (run_pass (some repo) c1 s).multibuffer).Nodup := by
  have hwf1 : viewWF (run_pass (some repo) c1 s).multibuffer :=
    run_pass_wf (some repo) c1 s hwf
  have hsub : ∀ k ∈ paths (run_pass (some repo) c1 s).multibuffer,
      k ∈ target_keys repo := by
    intro k hk
    rcases (run_pass_mem_general repo c1 s hwf k).mp hk with ⟨_, ht⟩ | hc
    · exact ht
    · exact loaded_keys_sub resolve _ k ((h1.map DiffBuffer.path_key).mem_iff.mp hc)
  have hnodup_loaded := loaded_keys_nodup resolve (issued_requests repo) hnd
  have hlkp : ∀ d ∈ c2,
      lookup_ranges (run_pass (some repo) c1 s).multibuffer d.path_key =
        some d.hunk_ranges := by
    intro d hd
    have hdl := h2.mem_iff.mp hd
    have hdc1 := h1.mem_iff.mpr hdl
    have huniq : ∀ d2 ∈ c1, d2.path_key = d.path_key → d2 = d := by
      intro d2 hd2 he
      exact List.inj_on_of_nodup_map hnodup_loaded (h1.mem_iff.mp hd2) hdl he
    rw [run_pass_multibuffer]
    exact register_all_lookup d c1 _ hdc1 huniq
  exact ⟨second_pass_id repo c2 _ hwf1 hsub hlkp, wf_nodup hwf1⟩

/-- Witness for C8: a second pass over the xyz snapshot, with the loads
completing in the opposite order, leaves the view of the first pass
unchanged. -/
theorem C8_idempotent_witness :
    (run_pass (some repo_xyz) loaded_xyz.reverse
        (run_pass (some repo_xyz) loaded_xyz st_empty)).multibuffer =
      (run_pass (some repo_xyz) loaded_xyz st_empty).multibuffer ∧
    (paths (run_pass (some repo_xyz) loaded_xyz st_empty).multibuffer).Nodup :=
  C8_idempotent repo_xyz resolve_one loaded_xyz loaded_xyz.reverse st_empty
    (by decide) (by decide) (List.Perm.refl _) (List.reverse_perm _)

/-- C9 counterexample: a completed load with deleted status applied to a key
whose excerpt already exists (for example a file that was modified in the
previous pass and deleted now) materializes the new ranges but does not fold
the buffer, contradicting the claim that every applied deleted load is
presented folded. -/
theorem C9_counterexample :
    d9.file_status.is_deleted = true ∧
    lookup_ranges (register_buffer d9 st9).multibuffer d9.path_key =
      some d9.hunk_ranges ∧
    d9.path_key ∉ (register_buffer d9 st9).folded := by decide

/-- C9 as amended: when a completed load with deleted status inserts a key
that was previously absent (a newly added excerpt), the buffer is folded and
its content is materialized. -/
theorem C9_fold_amended (d : DiffBuffer) (s : ProjectDiff)
    (hnm : d.path_key ∉ paths s.multibuffer)
    (hdel : d.file_status.is_deleted = true) :
    d.path_key ∈ (register_buffer d s).folded ∧
    lookup_ranges (register_buffer d s).multibuffer d.path_key =
      some d.hunk_ranges := by
  constructor
  · rw [register_folded, set_excerpts_snd_of_not_mem d.path_key d.hunk_ranges
      s.multibuffer hnm, hdel]
    simp
  · rw [register_multibuffer]
    exact lookup_set_self _ _ _

/-- Witness for C9 as amended: registering the deleted file into an empty
view folds it. -/
theorem C9_fold_amended_witness :
    d9.path_key ∉ paths st_empty.multibuffer ∧
    d9.path_key ∈ (register_buffer d9 st_empty).folded :=
  ⟨by decide, (C9_fold_amended d9 st_empty (by decide) (by decide)).1⟩

/-- C10: registering into an empty view hands focus to the editor exactly
when the container handle (or already the editor) held focus before; when a
registration leaves the view empty while the editor holds focus, focus falls
back to the container handle; and the view's focus handle is the container
handle whenever the view is empty. -/
theorem C10_focus :
    (∀ (d : DiffBuffer) (s : ProjectDiff), s.multibuffer = [] →
      ((register_buffer d s).focus = Focus.editor ↔
        (s.focus = Focus.container ∨ s.focus = Focus.editor))) ∧
    (∀ f : Focus, focus_after_register true f =
      (if f = Focus.editor then Focus.container else f)) ∧
    (∀ s : ProjectDiff, s.multibuffer = [] → focus_handle s = Focus.container) := by
  refine ⟨?_, ?_, ?_⟩
  · intro d s hmb
    have hred : (set_excerpts_for_path d.path_key d.hunk_ranges
        ([] : MergedView)).1.isEmpty = false := rfl
    rw [register_focus, hmb, hred]
    cases hfoc : s.focus <;> decide
  · intro f
    cases f <;> rfl
  · intro s h
    unfold focus_handle
    rw [h]
    rfl

/-- Witness for C10: an empty view whose container holds focus hands focus
to the editor when the first excerpt is registered. -/
theorem C10_focus_witness :
    st_empty_container.multibuffer = [] ∧
    ((register_buffer d9 st_empty_container).focus = Focus.editor ↔
      (st_empty_container.focus = Focus.container ∨
        st_empty_container.focus = Focus.editor)) :=
  ⟨rfl, C10_focus.1 d9 st_empty_container rfl⟩
